import Mathlib

/-!
Verification of the tool-call scheduling engine of this repository.

The scheduler implementation (`coreToolScheduler.ts`) is exercised by
`packages/core/src/core/coreToolScheduler.parallel.test.ts` but its source is
not part of the provided tree, so the Wave Builder, the per-call approval
state machine and the wave-driven scheduler are modelled here from the
specification's words.  The `delegate_to_visual_agent` tool
(`packages/core/src/agents/browser/delegateToVisualAgent.ts`) is present and
is embedded directly from its source.
-/

/-- Modelled from the spec: the per-call lifecycle states of a `ToolCall`
(spec §3, §4.3); `coreToolScheduler.ts` is missing from the tree. -/
inductive Status
  | validating
  | scheduled
  | awaiting_approval
  | executing
  | success
  | error
  | cancelled
deriving DecidableEq, Repr, Fintype

/-- Modelled from the spec: terminal states are `success`, `error`,
`cancelled` (spec §4.3). -/
def Status.isTerminal : Status → Bool
  | .success => true
  | .error => true
  | .cancelled => true
  | _ => false

/-- Modelled from the spec: the allowed status transitions of the approval
state machine (spec §4.3); `coreToolScheduler.ts` is missing from the tree. -/
def stepOk : Status → Status → Bool
  | .validating, .scheduled => true
  | .validating, .error => true
  | .scheduled, .awaiting_approval => true
  | .scheduled, .executing => true
  | .scheduled, .error => true
  | .scheduled, .cancelled => true
  | .awaiting_approval, .executing => true
  | .awaiting_approval, .cancelled => true
  | .awaiting_approval, .error => true
  | .executing, .success => true
  | .executing, .error => true
  | .executing, .cancelled => true
  | _, _ => false

/-- Rank of a status in the lifecycle; every allowed transition strictly
increases it, which is how monotonicity (no re-entry) is proved. -/
def Status.rank : Status → Nat
  | .validating => 0
  | .scheduled => 1
  | .awaiting_approval => 2
  | .executing => 3
  | .success => 4
  | .error => 4
  | .cancelled => 4

/-- Modelled from the spec: a wave is an ordered run of calls tagged
`parallel-read` (`isRead = true`, all members read-only) or
`exclusive-write` (`isRead = false`, exactly one non-read-only member)
(spec §3, §4.1).  Members keep the call paired with its read-only
classification. -/
structure Wave (α : Type) where
  isRead : Bool
  members : List (α × Bool)
deriving DecidableEq, Repr

/-- Prepend a read-only call to a wave list: it merges into a leading
`parallel-read` wave when one is there, otherwise it opens a new one. -/
def pushRead {α : Type} (a : α) : List (Wave α) → List (Wave α)
  | ⟨true, ms⟩ :: tl => ⟨true, (a, true) :: ms⟩ :: tl
  | ws => ⟨true, [(a, true)]⟩ :: ws

/-- Modelled from the spec: the Wave Builder (spec §4.1) — consecutive
read-only calls merge into one `parallel-read` wave, every non-read-only
call is a singleton `exclusive-write` wave, submission order is kept;
`coreToolScheduler.ts` is missing from the tree. -/
def buildWaves {α : Type} : List (α × Bool) → List (Wave α)
  | [] => []
  | (a, false) :: rest => ⟨false, [(a, false)]⟩ :: buildWaves rest
  | (a, true) :: rest => pushRead a (buildWaves rest)

/-- Modelled from the spec: where a tool capability was registered from —
locally defined, or discovered from an external MCP registry (spec §2, §8);
`coreToolScheduler.ts` is missing from the tree. -/
inductive ToolSource
  | localTool
  | mcpSourced
deriving DecidableEq, Repr

/-- Modelled from the spec: the slice of the Tool Capability contract the
Wave Builder consults — a name, the registration source and the `isReadOnly`
classification (spec §2, §4.1). -/
structure ToolCapability where
  name : String
  source : ToolSource
  isReadOnly : Bool
deriving DecidableEq, Repr

/-- Modelled from the spec: the scheduler classifies a call read-only iff the
resolved tool declares itself read-only, never looking at where the tool was
registered from (spec §4.1, §8). -/
def waveClass (tc : ToolCapability) : Bool := tc.isReadOnly

/-- Execution interval of a call: it is executing at the times
`start ≤ t < stop`. -/
structure Sched where
  start : Nat
  stop : Nat
deriving DecidableEq, Repr

/-- A call with interval `s` is executing at instant `t`. -/
def executingAt (s : Sched) (t : Nat) : Prop := s.start ≤ t ∧ t < s.stop

instance (s : Sched) (t : Nat) : Decidable (executingAt s t) :=
  inferInstanceAs (Decidable (_ ∧ _))

/-- Modelled from the spec: all members of one wave are launched together at
the wave's start instant and each runs for its own duration (spec §4.2
step 3, §5); `coreToolScheduler.ts` is missing from the tree. -/
def waveSpan {α : Type} (dur : α → Nat) (t0 : Nat) (w : Wave α) :
    List ((α × Bool) × Sched) :=
  w.members.map fun p => (p, ⟨t0, t0 + dur p.1⟩)

/-- Instant at which every member of the wave has reached a terminal state:
the wave's start plus its longest member duration. -/
def waveEnd {α : Type} (dur : α → Nat) (t0 : Nat) (w : Wave α) : Nat :=
  t0 + (w.members.map fun p => dur p.1).foldr max 0

/-- Modelled from the spec: the scheduler drives the waves in order and does
not begin wave `i+1` before every member of wave `i` is terminal (spec §4.2
step 3, §5); each wave's member intervals, one block per wave. -/
def layout {α : Type} (dur : α → Nat) : Nat → List (Wave α) → List (List ((α × Bool) × Sched))
  | _, [] => []
  | t0, w :: ws => waveSpan dur t0 w :: layout dur (waveEnd dur t0 w) ws

/-- Modelled from the spec: the Policy Engine's verdict on a pending call
(spec §3, §6); `coreToolScheduler.ts` is missing from the tree. -/
inductive PolicyDecision
  | allow
  | ask_user
  | deny
deriving DecidableEq, Repr

/-- Modelled from the spec: the batch-wide approval mode (spec §3). -/
inductive ApprovalMode
  | default
  | auto_edit
  | yolo
deriving DecidableEq, Repr

/-- Modelled from the spec: the response arriving on the Confirmation Channel
for a call that is `awaiting_approval` (spec §4.2 step 1, §6). -/
inductive ConfirmResponse
  | proceed
  | proceedWithArgs
  | denyConfirm
deriving DecidableEq, Repr

/-- Modelled from the spec: one part of a tool result's content — plain text
or inline binary data tagged with a MIME type (spec §4.5). -/
inductive ResultPart
  | text (s : String)
  | inlineData (mimeType : String) (data : List Nat)
deriving DecidableEq, Repr

/-- Modelled from the spec: the error taxonomy of terminal `error` results
(spec §7). -/
inductive ErrKind
  | unknownTool
  | invalidArgs
  | policyDenial
  | hookDenial
  | execFailure (msg : String)
deriving DecidableEq, Repr

/-- Modelled from the spec: the terminal result attached to a call —
ordered multi-modal content, display text and optional error info
(spec §3, §4.5). -/
structure CallResult where
  content : List ResultPart
  displayText : String
  errorInfo : Option ErrKind
deriving DecidableEq, Repr

/-- Modelled from the spec: what the tool capability's `execute` does when it
is actually invoked — return a result, raise a failure, or observe
cancellation cooperatively (spec §2, §5, §7). -/
inductive ExecOutcome
  | ok (content : List ResultPart) (display : String)
  | fail (msg : String)
  | interrupted
deriving Repr

/-- Modelled from the spec: one configured `AfterTool` hook — it may rewrite
the observed result content, or its invocation may fail, which is treated as
`allow` (spec §4.4, §7). -/
inductive AfterHook
  | rewrite (f : List ResultPart → List ResultPart)
  | hookFail

/-- Modelled from the spec: the `AfterTool` hooks run in configured order,
each rewriting hook replacing the payload and each failing hook leaving it
unchanged (spec §4.4). -/
def applyAfterHooks : List AfterHook → List ResultPart → List ResultPart
  | [], parts => parts
  | .rewrite f :: hs, parts => applyAfterHooks hs (f parts)
  | .hookFail :: hs, parts => applyAfterHooks hs parts

/-- Modelled from the spec: everything outside the scheduler that determines
one call's fate — whether the registry resolves the tool, the tool's
read-only flag, argument validity, the policy decision, whether a required
confirmation concerns an edit, the Confirmation Channel response, whether
the `BeforeTool` hook stage denies, the configured `AfterTool` hooks, and
the outcome of the tool's `execute` (spec §4.2, §6);
`coreToolScheduler.ts` is missing from the tree. -/
structure CallInput where
  callId : String
  resolved : Bool
  readOnly : Bool
  argsValid : Bool
  policy : PolicyDecision
  editKind : Bool
  confirm : ConfirmResponse
  beforeDeny : Bool
  afterHooks : List AfterHook
  execOutcome : ExecOutcome

/-- Modelled from the spec: the scheduler-owned record of one call after the
batch drains — its status history in order, final status, whether `execute`
was ever invoked, whether a confirmation request was published, and the
terminal result (spec §3, §4.2). -/
structure CallOutcome where
  callId : String
  history : List Status
  status : Status
  execInvoked : Bool
  published : Bool
  result : CallResult

/-- Modelled from the spec: the hook-before/execute/hook-after phase of one
call that was approved to run: a `BeforeTool` hook denial short-circuits to
`error` without invoking the tool; otherwise `execute` runs and its outcome
(result, failure, or cooperative cancellation) fixes the terminal state,
with `AfterTool` hooks rewriting only the result content (spec §4.2
steps 2-5, §4.4, §7). -/
def execPhase (inp : CallInput) (pub : Bool) (hist : List Status) : CallOutcome :=
  if inp.beforeDeny then
    ⟨inp.callId, hist ++ [.error], .error, false, pub,
      ⟨[], "hook denied", some .hookDenial⟩⟩
  else
    match inp.execOutcome with
    | .ok parts disp =>
        ⟨inp.callId, hist ++ [.executing, .success], .success, true, pub,
          ⟨applyAfterHooks inp.afterHooks parts, disp, none⟩⟩
    | .fail m =>
        ⟨inp.callId, hist ++ [.executing, .error], .error, true, pub,
          ⟨applyAfterHooks inp.afterHooks [.text m], m, some (.execFailure m)⟩⟩
    | .interrupted =>
        ⟨inp.callId, hist ++ [.executing, .cancelled], .cancelled, true, pub,
          ⟨[], "cancelled", none⟩⟩

/-- Modelled from the spec: the whole lifecycle of one call (spec §4.2, §4.3,
§7).  Unknown tool or invalid arguments give an immediate `error`; a call not
yet started when cancellation is observed goes directly to `cancelled`
without executing; policy `deny` gives `error` with the denial reason and no
execution; `allow` proceeds to the execute phase; `ask_user` suspends in
`awaiting_approval` and publishes a confirmation request unless the mode is
`yolo` (treated as `allow`) or the mode is `auto_edit` and the confirmation
is of edit kind; a confirmation denial gives `cancelled`;
`coreToolScheduler.ts` is missing from the tree. -/
def processCall (mode : ApprovalMode) (cancelled : Bool) (inp : CallInput) : CallOutcome :=
  if inp.resolved = false then
    ⟨inp.callId, [.validating, .error], .error, false, false,
      ⟨[], "unknown tool", some .unknownTool⟩⟩
  else if inp.argsValid = false then
    ⟨inp.callId, [.validating, .error], .error, false, false,
      ⟨[], "invalid arguments", some .invalidArgs⟩⟩
  else if cancelled then
    ⟨inp.callId, [.validating, .scheduled, .cancelled], .cancelled, false, false,
      ⟨[], "cancelled", none⟩⟩
  else
    match inp.policy with
    | .deny =>
        ⟨inp.callId, [.validating, .scheduled, .error], .error, false, false,
          ⟨[], "policy denial", some .policyDenial⟩⟩
    | .allow => execPhase inp false [.validating, .scheduled]
    | .ask_user =>
        if mode = ApprovalMode.yolo ∨ (mode = ApprovalMode.auto_edit ∧ inp.editKind = true) then
          execPhase inp false [.validating, .scheduled]
        else
          match inp.confirm with
          | .denyConfirm =>
              ⟨inp.callId, [.validating, .scheduled, .awaiting_approval, .cancelled], .cancelled,
                false, true, ⟨[], "user denied", none⟩⟩
          | _ => execPhase inp true [.validating, .scheduled, .awaiting_approval]

/-- Modelled from the spec: index of the wave a call occupies — the number of
wave boundaries before it, a boundary falling between two consecutive calls
unless both are classified read-only (spec §4.1). -/
def waveIdx (cls : List Bool) (i : Nat) : Nat :=
  ((List.range i).filter fun j => !(cls.getD j false && cls.getD (j + 1) false)).length

/-- Modelled from the spec: whether cancellation (triggered before wave `k`
begins) is already observed when the call with the given index starts —
true for every call sitting in wave `k` or later (spec §5). -/
def cancelFlag (cancelAt : Option Nat) (cls : List Bool) (i : Nat) : Bool :=
  match cancelAt with
  | none => false
  | some k => decide (k ≤ waveIdx cls i)

/-- Modelled from the spec: process the calls of the batch in submission
order, call `k` carrying its cancellation observation (spec §4.2). -/
def runFrom (mode : ApprovalMode) (cancelAt : Option Nat) (cls : List Bool) :
    Nat → List CallInput → List CallOutcome
  | _, [] => []
  | k, inp :: rest =>
      processCall mode (cancelFlag cancelAt cls k) inp ::
        runFrom mode cancelAt cls (k + 1) rest

/-- Modelled from the spec: what `schedule` leaves behind — the final call
list (one entry per submitted request, in order) and the list of
`onAllComplete` publications, the single completion event carrying the final
call list (spec §4.2, §6). -/
structure ScheduleResult where
  calls : List CallOutcome
  completions : List (List CallOutcome)

/-- Modelled from the spec: `schedule(requests, token)` — classify each call
read-only iff its tool resolves and declares read-only, drive every call to
a terminal state, then fire `onAllComplete` exactly once with the final list
(spec §4.1, §4.2, §6); `coreToolScheduler.ts` is missing from the tree. -/
def runSchedule (mode : ApprovalMode) (cancelAt : Option Nat)
    (inputs : List CallInput) : ScheduleResult :=
  let cls := inputs.map fun inp => inp.resolved && inp.readOnly
  let outs := runFrom mode cancelAt cls 0 inputs
  ⟨outs, [outs]⟩

instance : IsTrans Status (fun a b => a.rank < b.rank) :=
  ⟨fun _ _ _ h1 h2 => Nat.lt_trans h1 h2⟩

/-- Sample call input used by the concrete witnesses: a resolved read-only
call whose policy decision is `allow`, with no hooks configured and an
execution returning a one-part text result. -/
def sampleInput : CallInput :=
  ⟨"1", true, true, true, .allow, false, .proceed, false, [], .ok [.text "done"] "done"⟩


/-- Truthiness of an optional string field as JavaScript sees it: the field
is present and non-empty (`delegateToVisualAgent.ts`, the checks
`content.data` and `content.text`). -/
def jsTruthy : Option String → Bool
  | none => false
  | some s => !(s == "")

/-- One content item of an MCP tool response as read by
`DelegateToVisualAgentInvocation.execute` (`delegateToVisualAgent.ts`
lines 77-90): a type tag plus optional `data`, `text` and `mimeType`. -/
structure McpContentItem where
  type : String
  data : Option String
  text : Option String
  mimeType : Option String
deriving DecidableEq, Repr

/-- Result of `browserManager.callTool`, whose `content` may be absent
(`screenshotResult.content?.[0]` in `delegateToVisualAgent.ts`). -/
structure McpToolResult where
  content : Option (List McpContentItem)
deriving DecidableEq, Repr

/-- Screenshot extraction of `delegateToVisualAgent.ts` lines 77-90: returns
the base64 payload and MIME type — from an image item's `data` field (MIME
defaulting to `image/png`), else from a truthy `text` field, else empty. -/
def extractScreenshot (r : McpToolResult) : String × String :=
  match (r.content.getD []).head? with
  | none => ("", "image/png")
  | some c =>
    if c.type == "image" && jsTruthy c.data then
      (c.data.getD "", c.mimeType.getD "image/png")
    else if jsTruthy c.text then
      (c.text.getD "", "image/png")
    else ("", "image/png")

/-- One `@google/genai` content part as built by `delegateToVisualAgent.ts`:
text or inline base64 data with a MIME type. -/
inductive GenaiPart
  | text (s : String)
  | inlineData (mimeType : String) (data : String)
deriving DecidableEq, Repr

/-- One message of the visual agent's initial context
(`delegateToVisualAgent.ts` lines 104-124). -/
structure GenaiMessage where
  role : String
  parts : List GenaiPart
deriving DecidableEq, Repr

/-- Initial-message construction of `delegateToVisualAgent.ts` lines
106-124: one user message wrapping the instruction, the screenshot as
inline data and a trailing prompt — only when a screenshot was captured. -/
def buildInitialMessages (instruction screenshotBase64 mimeType : String) :
    List GenaiMessage :=
  if screenshotBase64 ≠ "" then
    [⟨"user",
      [.text ("Your task is: " ++ instruction ++
        "\n\nHere is the current screenshot of the page:"),
       .inlineData mimeType screenshotBase64,
       .text "Analyze this screenshot and perform the necessary actions to complete the task."]⟩]
  else []

/-- Output of `executor.run` (`delegateToVisualAgent.ts` lines 157-169). -/
structure AgentOutput where
  terminate_reason : String
  result : String
deriving DecidableEq, Repr

/-- Outcomes of the four effectful steps of
`DelegateToVisualAgentInvocation.execute`: the screenshot MCP call, MCP tool
creation, `LocalAgentExecutor.create` and `executor.run` — each either
returns or throws with a message (JavaScript errors are carried as their
message strings, matching `error instanceof Error ? error.message :
String(error)`). -/
structure VisualEnv where
  takeScreenshot : Except String McpToolResult
  createTools : Except String Unit
  createExecutor : Except String Unit
  runAgent : Except String AgentOutput

/-- The `ToolResult` fields `DelegateToVisualAgentInvocation.execute`
returns: `llmContent`, `returnDisplay` and the optional `error.message`. -/
structure VisualToolResult where
  llmContent : String
  returnDisplay : String
  errorMessage : Option String
deriving DecidableEq, Repr

/-- Failure result built in the catch block of
`DelegateToVisualAgentInvocation.execute` (`delegateToVisualAgent.ts`
lines 175-183). -/
def visualFailure (msg : String) : VisualToolResult :=
  ⟨"Visual delegation failed: " ++ msg, "Visual delegation failed: " ++ msg, some msg⟩

/-- Embedding of `DelegateToVisualAgentInvocation.execute`
(`delegateToVisualAgent.ts` lines 65-184): capture a screenshot, create the
MCP tools, build the initial messages, create and run the visual agent, and
format the agent's output; the surrounding try/catch turns any thrown error
into the `visualFailure` result. -/
def DelegateToVisualAgentInvocation.execute (instruction : String) (env : VisualEnv) :
    VisualToolResult :=
  match env.takeScreenshot with
  | .error e => visualFailure e
  | .ok screenshotResult =>
    let sb := extractScreenshot screenshotResult
    match env.createTools with
    | .error e => visualFailure e
    | .ok _ =>
      let _msgs := buildInitialMessages instruction sb.1 sb.2
      match env.createExecutor with
      | .error e => visualFailure e
      | .ok _ =>
        match env.runAgent with
        | .error e => visualFailure e
        | .ok out =>
          let resultText := "Visual Agent Result:\nTermination Reason: " ++
            out.terminate_reason ++ "\nResult: " ++ out.result
          ⟨resultText, resultText, none⟩


theorem pushRead_nil {α : Type} (a : α) : pushRead a ([] : List (Wave α)) = [⟨true, [(a, true)]⟩] := rfl

theorem pushRead_read {α : Type} (a : α) (ms : List (α × Bool)) (tl : List (Wave α)) :
    pushRead a (⟨true, ms⟩ :: tl) = ⟨true, (a, true) :: ms⟩ :: tl := rfl

theorem pushRead_write {α : Type} (a : α) (ms : List (α × Bool)) (tl : List (Wave α)) :
    pushRead a (⟨false, ms⟩ :: tl) = ⟨true, [(a, true)]⟩ :: ⟨false, ms⟩ :: tl := rfl

theorem pushRead_flatten {α : Type} (a : α) (ws : List (Wave α)) :
    (pushRead a ws).flatMap Wave.members = (a, true) :: ws.flatMap Wave.members := by
  cases ws with
  | nil => rfl
  | cons w tl =>
    cases w with
    | mk r ms => cases r <;> simp [pushRead, List.flatMap_cons]

/-- Flattening the waves in order recovers the submitted list: no call is
dropped, duplicated or reordered. -/
theorem buildWaves_flatten {α : Type} (l : List (α × Bool)) :
    (buildWaves l).flatMap Wave.members = l := by
  induction l with
  | nil => rfl
  | cons p rest ih =>
    cases p with
    | mk a ro =>
      cases ro with
      | false => simp [buildWaves, List.flatMap_cons, ih]
      | true => simp [buildWaves, pushRead_flatten, ih]

theorem pushRead_mem {α : Type} (a : α) (ws : List (Wave α)) (w : Wave α)
    (hw : w ∈ pushRead a ws) :
    w = ⟨true, [(a, true)]⟩ ∨ (∃ ms, w = ⟨true, (a, true) :: ms⟩ ∧ ⟨true, ms⟩ ∈ ws) ∨ w ∈ ws := by
  cases ws with
  | nil =>
    rw [pushRead_nil] at hw
    simp at hw
    exact Or.inl hw
  | cons w0 tl =>
    cases w0 with
    | mk r ms =>
      cases r with
      | false =>
        rw [pushRead_write] at hw
        rcases List.mem_cons.mp hw with h | h
        · exact Or.inl h
        · exact Or.inr (Or.inr h)
      | true =>
        rw [pushRead_read] at hw
        rcases List.mem_cons.mp hw with h | h
        · exact Or.inr (Or.inl ⟨ms, h, List.mem_cons_self _ _⟩)
        · exact Or.inr (Or.inr (List.mem_cons_of_mem _ h))

/-- Every `exclusive-write` wave is a singleton holding a non-read-only call. -/
theorem buildWaves_write_singleton {α : Type} (l : List (α × Bool)) :
    ∀ w ∈ buildWaves l, w.isRead = false → ∃ a, w.members = [(a, false)] := by
  induction l with
  | nil => intro w hw; simp [buildWaves] at hw
  | cons p rest ih =>
    intro w hw hr
    cases p with
    | mk a ro =>
      cases ro with
      | false =>
        simp only [buildWaves] at hw
        rcases List.mem_cons.mp hw with h | h
        · subst h; exact ⟨a, rfl⟩
        · exact ih w h hr
      | true =>
        simp only [buildWaves] at hw
        rcases pushRead_mem a _ w hw with h | ⟨ms, h, _⟩ | h
        · subst h; simp at hr
        · subst h; simp at hr
        · exact ih w h hr

/-- Every member of a `parallel-read` wave is classified read-only. -/
theorem buildWaves_read_members {α : Type} (l : List (α × Bool)) :
    ∀ w ∈ buildWaves l, w.isRead = true → ∀ p ∈ w.members, p.2 = true := by
  induction l with
  | nil => intro w hw; simp [buildWaves] at hw
  | cons q rest ih =>
    intro w hw hr
    cases q with
    | mk a ro =>
      cases ro with
      | false =>
        simp only [buildWaves] at hw
        rcases List.mem_cons.mp hw with h | h
        · subst h; simp at hr
        · exact ih w h hr
      | true =>
        simp only [buildWaves] at hw
        rcases pushRead_mem a _ w hw with h | ⟨ms, h, hms⟩ | h
        · subst h
          intro p hp
          simp at hp
          subst hp
          rfl
        · subst h
          intro p hp
          rcases List.mem_cons.mp hp with h | h
          · subst h; rfl
          · exact ih ⟨true, ms⟩ hms rfl p h
        · exact ih w h hr

/-- No wave produced by `buildWaves` is empty. -/
theorem buildWaves_nonempty {α : Type} (l : List (α × Bool)) :
    ∀ w ∈ buildWaves l, w.members ≠ [] := by
  induction l with
  | nil => intro w hw; simp [buildWaves] at hw
  | cons q rest ih =>
    intro w hw
    cases q with
    | mk a ro =>
      cases ro with
      | false =>
        simp only [buildWaves] at hw
        rcases List.mem_cons.mp hw with h | h
        · subst h; simp
        · exact ih w h
      | true =>
        simp only [buildWaves] at hw
        rcases pushRead_mem a _ w hw with h | ⟨ms, h, _⟩ | h
        · subst h; simp
        · subst h; simp
        · exact ih w h

theorem pushRead_head_read {α : Type} (a : α) (ws : List (Wave α)) :
    ∃ ms tl, pushRead a ws = ⟨true, ms⟩ :: tl ∧ (tl = ws ∨ ∃ ms0 tl0, ws = ⟨true, ms0⟩ :: tl0 ∧ tl = tl0) := by
  cases ws with
  | nil => exact ⟨[(a, true)], [], rfl, Or.inl rfl⟩
  | cons w0 tl =>
    cases w0 with
    | mk r ms0 =>
      cases r with
      | false => exact ⟨[(a, true)], ⟨false, ms0⟩ :: tl, rfl, Or.inl rfl⟩
      | true => exact ⟨(a, true) :: ms0, tl, rfl, Or.inr ⟨ms0, tl, rfl, rfl⟩⟩

/-- Maximality of read runs: the wave list never holds two adjacent
`parallel-read` waves (consecutive read-only calls were merged). -/
theorem buildWaves_maximal {α : Type} (l : List (α × Bool)) :
    List.Chain' (fun w w' => ¬(w.isRead = true ∧ w'.isRead = true)) (buildWaves l) := by
  induction l with
  | nil => simp [buildWaves]
  | cons q rest ih =>
    cases q with
    | mk a ro =>
      cases ro with
      | false =>
        simp only [buildWaves]
        cases h : buildWaves rest with
        | nil => simp
        | cons w0 tl =>
          rw [h] at ih
          exact List.Chain'.cons (by simp) ih
      | true =>
        simp only [buildWaves]
        cases h : buildWaves rest with
        | nil => simp [pushRead_nil]
        | cons w0 tl =>
          rw [h] at ih
          cases w0 with
          | mk r ms0 =>
            cases r with
            | false =>
              rw [pushRead_write]
              exact List.Chain'.cons (by simp) ih
            | true =>
              rw [pushRead_read]
              cases tl with
              | nil => simp
              | cons w1 tl1 =>
                rw [List.chain'_cons] at ih ⊢
                exact ⟨ih.1, ih.2⟩

/-- C1: for the classification sequence `[R,R,W,R,R]` the Wave Builder yields
exactly the three waves `[call1, call2]` (parallel-read), `[call3]`
(exclusive-write), `[call4, call5]` (parallel-read), in that order; and in
general consecutive read-only calls merge into one parallel-read wave, every
non-read-only call is a singleton exclusive-write wave, and flattening the
waves in order recovers the submitted batch unchanged (no reordering). -/
theorem C1_wave_partition :
    buildWaves [((1 : Nat), true), (2, true), (3, false), (4, true), (5, true)] =
      [⟨true, [(1, true), (2, true)]⟩, ⟨false, [(3, false)]⟩, ⟨true, [(4, true), (5, true)]⟩]
    ∧ ∀ (α : Type) (l : List (α × Bool)),
      (buildWaves l).flatMap Wave.members = l
      ∧ (∀ w ∈ buildWaves l, w.isRead = false → ∃ a, w.members = [(a, false)])
      ∧ (∀ w ∈ buildWaves l, w.isRead = true → ∀ p ∈ w.members, p.2 = true)
      ∧ List.Chain' (fun w w' => ¬(w.isRead = true ∧ w'.isRead = true)) (buildWaves l) := by
  refine ⟨by decide, fun α l => ⟨buildWaves_flatten l, ?_, ?_, buildWaves_maximal l⟩⟩
  · exact fun w hw hr => buildWaves_write_singleton l w hw hr
  · exact fun w hw hr => buildWaves_read_members l w hw hr

/-- Witness for C1: instantiating the general part at the concrete batch
`[R,W]` shows the exclusive-write wave is the singleton `[(3, false)]`. -/
theorem C1_wave_partition_witness :
    (buildWaves [((1 : Nat), true), (3, false)]).flatMap Wave.members = [(1, true), (3, false)]
    ∧ ∃ a, (Wave.mk false [((3 : Nat), false)]).members = [(a, false)] :=
  ⟨(C1_wave_partition.2 Nat [(1, true), (3, false)]).1,
    (C1_wave_partition.2 Nat [(1, true), (3, false)]).2.1 ⟨false, [(3, false)]⟩ (by decide) rfl⟩


theorem le_foldr_max (x : Nat) (l : List Nat) (hx : x ∈ l) : x ≤ l.foldr max 0 := by
  induction l with
  | nil => simp at hx
  | cons y ys ih =>
    rcases List.mem_cons.mp hx with h | h
    · subst h; exact Nat.le_max_left _ _
    · exact Nat.le_trans (ih h) (Nat.le_max_right _ _)

theorem waveSpan_start {α : Type} (dur : α → Nat) (t0 : Nat) (w : Wave α)
    (c : (α × Bool) × Sched) (hc : c ∈ waveSpan dur t0 w) :
    c.2.start = t0 ∧ c.2.stop = t0 + dur c.1.1 := by
  rcases List.mem_map.mp hc with ⟨p, _, hp⟩
  subst hp
  exact ⟨rfl, rfl⟩

theorem waveSpan_stop_le {α : Type} (dur : α → Nat) (t0 : Nat) (w : Wave α)
    (c : (α × Bool) × Sched) (hc : c ∈ waveSpan dur t0 w) :
    c.2.stop ≤ waveEnd dur t0 w := by
  rcases List.mem_map.mp hc with ⟨p, hpmem, hp⟩
  subst hp
  have hmem : dur p.1 ∈ w.members.map fun q => dur q.1 :=
    List.mem_map.mpr ⟨p, hpmem, rfl⟩
  have h := le_foldr_max (dur p.1) _ hmem
  simpa [waveEnd] using Nat.add_le_add_left h t0

theorem layout_start_ge {α : Type} (dur : α → Nat) (ws : List (Wave α)) :
    ∀ (t0 : Nat) (b : List ((α × Bool) × Sched)), b ∈ layout dur t0 ws →
      ∀ c ∈ b, t0 ≤ c.2.start := by
  induction ws with
  | nil => intro t0 b hb; simp [layout] at hb
  | cons w ws ih =>
    intro t0 b hb c hc
    simp only [layout] at hb
    rcases List.mem_cons.mp hb with h | h
    · subst h
      exact Nat.le_of_eq (waveSpan_start dur t0 w c hc).1.symm
    · exact Nat.le_trans (Nat.le_add_right _ _) (ih (waveEnd dur t0 w) b h c hc)

theorem layout_get_span {α : Type} (dur : α → Nat) (ws : List (Wave α)) :
    ∀ (t0 : Nat) (i : Nat) (b : List ((α × Bool) × Sched)),
      (layout dur t0 ws)[i]? = some b →
      ∃ base w, ws[i]? = some w ∧ b = waveSpan dur base w := by
  induction ws with
  | nil => intro t0 i b hb; simp [layout] at hb
  | cons w ws ih =>
    intro t0 i b hb
    cases i with
    | zero =>
      simp only [layout, List.getElem?_cons_zero] at hb
      exact ⟨t0, w, by simp, (Option.some_injective _ hb).symm⟩
    | succ i' =>
      simp only [layout, List.getElem?_cons_succ] at hb
      rcases ih (waveEnd dur t0 w) i' b hb with ⟨base, w', hw', hbw⟩
      exact ⟨base, w', by simpa using hw', hbw⟩

theorem layout_cross {α : Type} (dur : α → Nat) (ws : List (Wave α)) :
    ∀ (t0 : Nat) (i j : Nat) (bi bj : List ((α × Bool) × Sched))
      (c c' : (α × Bool) × Sched),
      (layout dur t0 ws)[i]? = some bi → (layout dur t0 ws)[j]? = some bj →
      i < j → c ∈ bi → c' ∈ bj → c.2.stop ≤ c'.2.start := by
  induction ws with
  | nil => intro t0 i j bi bj c c' hbi; simp [layout] at hbi
  | cons w ws ih =>
    intro t0 i j bi bj c c' hbi hbj hij hc hc'
    cases i with
    | zero =>
      simp only [layout, List.getElem?_cons_zero] at hbi
      cases j with
      | zero => exact absurd hij (Nat.lt_irrefl 0)
      | succ j' =>
        simp only [layout, List.getElem?_cons_succ] at hbj
        have hbi' : bi = waveSpan dur t0 w := (Option.some_injective _ hbi).symm
        subst hbi'
        have h1 : c.2.stop ≤ waveEnd dur t0 w := waveSpan_stop_le dur t0 w c hc
        have h2 : waveEnd dur t0 w ≤ c'.2.start :=
          layout_start_ge dur ws (waveEnd dur t0 w) bj
            (List.getElem?_mem hbj) c' hc'
        exact Nat.le_trans h1 h2
    | succ i' =>
      cases j with
      | zero => exact absurd hij (by omega)
      | succ j' =>
        simp only [layout, List.getElem?_cons_succ] at hbi hbj
        exact ih (waveEnd dur t0 w) i' j' bi bj c c' hbi hbj (Nat.lt_of_succ_lt_succ hij) hc hc'

/-- C2: across waves, a later-wave call never begins execution before every
member of an earlier wave is terminal — every member interval of wave `j`
starts at or after the stop instant of every member interval of wave `i`
whenever `i < j`, and in particular no earlier-wave call is still executing
at the instant a later-wave call starts. -/
theorem C2_cross_wave_barrier :
    ∀ (α : Type) (dur : α → Nat) (t0 : Nat) (ws : List (Wave α)) (i j : Nat)
      (bi bj : List ((α × Bool) × Sched)) (c c' : (α × Bool) × Sched),
      (layout dur t0 ws)[i]? = some bi → (layout dur t0 ws)[j]? = some bj →
      i < j → c ∈ bi → c' ∈ bj →
      c.2.stop ≤ c'.2.start ∧ ¬ executingAt c.2 c'.2.start := by
  intro α dur t0 ws i j bi bj c c' hbi hbj hij hc hc'
  have h := layout_cross dur ws t0 i j bi bj c c' hbi hbj hij hc hc'
  exact ⟨h, fun hex => absurd (Nat.lt_of_lt_of_le hex.2 h) (by omega)⟩

/-- Witness for C2: the batch `[R, R, W]` with unit durations from instant 0
puts the write in wave 2, whose interval `[2, 3)` starts after the read
intervals `[0, 1)` have stopped. -/
theorem C2_cross_wave_barrier_witness :
    (((1 : Nat), true), Sched.mk 0 1).2.stop ≤ (((3 : Nat), false), Sched.mk 1 2).2.start
    ∧ ¬ executingAt (Sched.mk 0 1) 1 :=
  C2_cross_wave_barrier Nat (fun _ => 1) 0
    (buildWaves [(1, true), (2, true), (3, false)]) 0 1
    [((1, true), ⟨0, 1⟩), ((2, true), ⟨0, 1⟩)] [((3, false), ⟨1, 2⟩)]
    ((1, true), ⟨0, 1⟩) ((3, false), ⟨1, 2⟩)
    (by decide) (by decide) (by decide) (by decide) (by decide)

theorem waveSpan_same_start {α : Type} (dur : α → Nat) (t0 : Nat) (w : Wave α)
    (c c' : (α × Bool) × Sched) (hc : c ∈ waveSpan dur t0 w) (hc' : c' ∈ waveSpan dur t0 w) :
    c.2.start = c'.2.start := by
  rw [(waveSpan_start dur t0 w c hc).1, (waveSpan_start dur t0 w c' hc').1]

theorem waveSpan_singleton {α : Type} (dur : α → Nat) (t0 : Nat) (q : α × Bool)
    (c c' : (α × Bool) × Sched) (hc : c ∈ waveSpan dur t0 ⟨false, [q]⟩)
    (hc' : c' ∈ waveSpan dur t0 ⟨false, [q]⟩) : c = c' := by
  simp [waveSpan] at hc hc'
  rw [hc, hc']

/-- C3: over the waves the Wave Builder computes for any batch of tool
capabilities (classified by `waveClass`, which ignores whether the tool is
locally defined or MCP-sourced), any two member intervals of one
`parallel-read` wave overlap — there is an instant at which both are
executing — while the member of an `exclusive-write` wave shares its wave
with no other call and overlaps no interval of any other wave. -/
theorem C3_overlap_and_exclusion :
    ∀ (l : List ToolCapability) (dur : ToolCapability → Nat) (t0 : Nat),
      (∀ (i : Nat) (w : Wave ToolCapability) (b : List ((ToolCapability × Bool) × Sched))
         (c c' : (ToolCapability × Bool) × Sched),
         (buildWaves (l.map fun tc => (tc, waveClass tc)))[i]? = some w → w.isRead = true →
         (layout dur t0 (buildWaves (l.map fun tc => (tc, waveClass tc))))[i]? = some b →
         c ∈ b → c' ∈ b → c.2.start < c.2.stop → c'.2.start < c'.2.stop →
         ∃ t, executingAt c.2 t ∧ executingAt c'.2 t)
      ∧ (∀ (i j : Nat) (w : Wave ToolCapability) (b b' : List ((ToolCapability × Bool) × Sched))
           (c c' : (ToolCapability × Bool) × Sched),
           (buildWaves (l.map fun tc => (tc, waveClass tc)))[i]? = some w → w.isRead = false →
           (layout dur t0 (buildWaves (l.map fun tc => (tc, waveClass tc))))[i]? = some b →
           (layout dur t0 (buildWaves (l.map fun tc => (tc, waveClass tc))))[j]? = some b' →
           c ∈ b → c' ∈ b' →
           (i = j → c = c') ∧ (i ≠ j → ∀ t, ¬(executingAt c.2 t ∧ executingAt c'.2 t)))
      ∧ (∀ (nm nm' : String) (src src' : ToolSource) (ro : Bool),
           waveClass ⟨nm, src, ro⟩ = waveClass ⟨nm', src', ro⟩) := by
  intro l dur t0
  refine ⟨?_, ?_, fun _ _ _ _ _ => rfl⟩
  · intro i w b c c' _ _ hb hc hc' hcd hcd'
    rcases layout_get_span dur _ t0 i b hb with ⟨base, w', _, hbw⟩
    subst hbw
    have hs := waveSpan_same_start dur base w' c c' hc hc'
    refine ⟨c.2.start, ⟨Nat.le_refl _, hcd⟩, ⟨Nat.le_of_eq hs.symm, ?_⟩⟩
    rw [hs]
    exact hcd'
  · intro i j w b b' c c' hw hwr hb hb' hc hc'
    constructor
    · intro hij
      subst hij
      rw [hb] at hb'
      have hbb : b = b' := Option.some_injective _ hb'
      subst hbb
      rcases layout_get_span dur _ t0 i b hb with ⟨base, w', hw', hbw⟩
      rw [hw] at hw'
      have hww : w = w' := Option.some_injective _ hw'
      subst hww
      rcases buildWaves_write_singleton _ w (List.getElem?_mem hw) hwr with ⟨a, hmem⟩
      subst hbw
      rcases w with ⟨r, ms⟩
      simp only at hmem
      subst hmem
      simp only at hwr
      subst hwr
      exact waveSpan_singleton dur base (a, false) c c' hc hc'
    · intro hij t hex
      rcases Nat.lt_or_ge i j with h | h
      · have := layout_cross dur _ t0 i j b b' c c' hb hb' h hc hc'
        have h1 := hex.1.2
        have h2 := hex.2.1
        omega
      · have hji : j < i := Nat.lt_of_le_of_ne h (fun e => hij e.symm)
        have := layout_cross dur _ t0 j i b' b c' c hb' hb hji hc' hc
        have h1 := hex.2.2
        have h2 := hex.1.1
        omega

/-- Witness for C3: two consecutively submitted MCP-sourced read-only tools
form one parallel-read wave and their intervals `[0, 50)` overlap, e.g. at
instant 0. -/
theorem C3_overlap_and_exclusion_witness :
    ∃ t, executingAt ⟨0, 50⟩ t ∧ executingAt ⟨0, 50⟩ t :=
  (C3_overlap_and_exclusion
      [⟨"mcp_read1", .mcpSourced, true⟩, ⟨"mcp_read2", .mcpSourced, true⟩]
      (fun _ => 50) 0).1 0
    ⟨true, [(⟨"mcp_read1", .mcpSourced, true⟩, true), (⟨"mcp_read2", .mcpSourced, true⟩, true)]⟩
    [((⟨"mcp_read1", .mcpSourced, true⟩, true), ⟨0, 50⟩),
     ((⟨"mcp_read2", .mcpSourced, true⟩, true), ⟨0, 50⟩)]
    ((⟨"mcp_read1", .mcpSourced, true⟩, true), ⟨0, 50⟩)
    ((⟨"mcp_read2", .mcpSourced, true⟩, true), ⟨0, 50⟩)
    (by decide) rfl (by decide) (by decide) (by decide) (by decide) (by decide)

theorem stepOk_rank : ∀ s t : Status, stepOk s t = true → s.rank < t.rank := by decide

theorem execPhase_spec (inp : CallInput) (pub : Bool) (hist : List Status)
    (hh : hist = [.validating, .scheduled] ∨
      hist = [.validating, .scheduled, .awaiting_approval]) :
    List.Chain' (fun a b => stepOk a b = true) (execPhase inp pub hist).history
    ∧ (execPhase inp pub hist).history.head? = some .validating
    ∧ (execPhase inp pub hist).history.getLast? = some (execPhase inp pub hist).status
    ∧ (execPhase inp pub hist).status.isTerminal = true := by
  rcases hh with h | h <;> subst h <;>
    cases hbd : inp.beforeDeny <;>
    cases heo : inp.execOutcome <;>
    simp [execPhase, hbd, heo] <;> decide

theorem execPhase_published (inp : CallInput) (pub : Bool) (hist : List Status) :
    (execPhase inp pub hist).published = pub := by
  cases hbd : inp.beforeDeny <;> cases heo : inp.execOutcome <;> simp [execPhase, hbd, heo]

theorem execPhase_callId (inp : CallInput) (pub : Bool) (hist : List Status) :
    (execPhase inp pub hist).callId = inp.callId := by
  cases hbd : inp.beforeDeny <;> cases heo : inp.execOutcome <;> simp [execPhase, hbd, heo]

theorem processCall_spec (mode : ApprovalMode) (cancelled : Bool) (inp : CallInput) :
    List.Chain' (fun a b => stepOk a b = true) (processCall mode cancelled inp).history
    ∧ (processCall mode cancelled inp).history.head? = some .validating
    ∧ (processCall mode cancelled inp).history.getLast? =
        some (processCall mode cancelled inp).status
    ∧ (processCall mode cancelled inp).status.isTerminal = true := by
  rcases inp with ⟨cid, res, ro, av, pol, ek, cf, bd, ah, eo⟩
  cases res with
  | false => simp [processCall]; decide
  | true =>
    cases av with
    | false => simp [processCall]; decide
    | true =>
      cases cancelled with
      | true => simp [processCall]; decide
      | false =>
        cases pol with
        | deny => simp [processCall]; decide
        | allow =>
          simp only [processCall]
          norm_num
          exact execPhase_spec _ _ _ (Or.inl rfl)
        | ask_user =>
          by_cases hm : mode = ApprovalMode.yolo ∨ (mode = ApprovalMode.auto_edit ∧ ek = true)
          · simp only [processCall]
            norm_num
            rw [if_pos hm]
            exact execPhase_spec _ _ _ (Or.inl rfl)
          · cases cf with
            | denyConfirm =>
              simp only [processCall]
              norm_num
              rw [if_neg hm]
              dsimp only
              exact ⟨by simp [List.chain'_cons, stepOk], rfl, rfl, rfl⟩
            | proceed =>
              simp only [processCall]
              norm_num
              rw [if_neg hm]
              exact execPhase_spec _ _ _ (Or.inr rfl)
            | proceedWithArgs =>
              simp only [processCall]
              norm_num
              rw [if_neg hm]
              exact execPhase_spec _ _ _ (Or.inr rfl)

theorem processCall_callId (mode : ApprovalMode) (cancelled : Bool) (inp : CallInput) :
    (processCall mode cancelled inp).callId = inp.callId := by
  rcases inp with ⟨cid, res, ro, av, pol, ek, cf, bd, ah, eo⟩
  cases res with
  | false => simp [processCall]
  | true =>
    cases av with
    | false => simp [processCall]
    | true =>
      cases cancelled with
      | true => simp [processCall]
      | false =>
        cases pol with
        | deny => simp [processCall]
        | allow =>
          simp only [processCall]
          norm_num
          exact execPhase_callId _ _ _
        | ask_user =>
          by_cases hm : mode = ApprovalMode.yolo ∨ (mode = ApprovalMode.auto_edit ∧ ek = true)
          · simp only [processCall]
            norm_num
            rw [if_pos hm]
            exact execPhase_callId _ _ _
          · cases cf with
            | denyConfirm =>
              simp only [processCall]
              norm_num
              rw [if_neg hm]
            | proceed =>
              simp only [processCall]
              norm_num
              rw [if_neg hm]
              exact execPhase_callId _ _ _
            | proceedWithArgs =>
              simp only [processCall]
              norm_num
              rw [if_neg hm]
              exact execPhase_callId _ _ _

theorem processCall_cancelled_of_valid (mode : ApprovalMode) (inp : CallInput)
    (hres : inp.resolved = true) (hav : inp.argsValid = true) :
    (processCall mode true inp).status = .cancelled
    ∧ (processCall mode true inp).execInvoked = false
    ∧ (processCall mode true inp).history = [.validating, .scheduled, .cancelled] := by
  simp [processCall, hres, hav]

theorem cancelFlag_none (cls : List Bool) (i : Nat) : cancelFlag none cls i = false := rfl

theorem cancelFlag_zero (cls : List Bool) (i : Nat) : cancelFlag (some 0) cls i = true := by
  simp [cancelFlag]

theorem runFrom_getElem (mode : ApprovalMode) (cancelAt : Option Nat) (cls : List Bool) :
    ∀ (l : List CallInput) (k i : Nat),
      (runFrom mode cancelAt cls k l)[i]? =
        (l[i]?).map fun inp => processCall mode (cancelFlag cancelAt cls (k + i)) inp := by
  intro l
  induction l with
  | nil => intro k i; simp [runFrom]
  | cons x xs ih =>
    intro k i
    cases i with
    | zero => simp [runFrom]
    | succ i' =>
      simp only [runFrom, List.getElem?_cons_succ]
      rw [ih (k + 1) i']
      have h : k + 1 + i' = k + (i' + 1) := by omega
      rw [h]

theorem runFrom_mem (mode : ApprovalMode) (cancelAt : Option Nat) (cls : List Bool) :
    ∀ (l : List CallInput) (k : Nat) (c : CallOutcome), c ∈ runFrom mode cancelAt cls k l →
      ∃ inp ∈ l, ∃ j, c = processCall mode (cancelFlag cancelAt cls j) inp := by
  intro l
  induction l with
  | nil => intro k c hc; simp [runFrom] at hc
  | cons x xs ih =>
    intro k c hc
    simp only [runFrom] at hc
    rcases List.mem_cons.mp hc with h | h
    · exact ⟨x, List.mem_cons_self _ _, k, h⟩
    · rcases ih (k + 1) c h with ⟨inp, hmem, j, hj⟩
      exact ⟨inp, List.mem_cons_of_mem _ hmem, j, hj⟩

theorem runFrom_length (mode : ApprovalMode) (cancelAt : Option Nat) (cls : List Bool) :
    ∀ (l : List CallInput) (k : Nat), (runFrom mode cancelAt cls k l).length = l.length := by
  intro l
  induction l with
  | nil => intro k; rfl
  | cons x xs ih => intro k; simp [runFrom, ih (k + 1)]

theorem runFrom_callIds (mode : ApprovalMode) (cancelAt : Option Nat) (cls : List Bool) :
    ∀ (l : List CallInput) (k : Nat),
      (runFrom mode cancelAt cls k l).map CallOutcome.callId = l.map CallInput.callId := by
  intro l
  induction l with
  | nil => intro k; rfl
  | cons x xs ih =>
    intro k
    simp [runFrom, ih (k + 1), processCall_callId]

theorem applyAfterHooks_fail : ∀ (hooks : List AfterHook) (parts : List ResultPart),
    (∀ h ∈ hooks, h = AfterHook.hookFail) → applyAfterHooks hooks parts = parts := by
  intro hooks
  induction hooks with
  | nil => intro parts _; rfl
  | cons hk hs ih =>
    intro parts hall
    have h1 : hk = AfterHook.hookFail := hall hk (List.mem_cons_self _ _)
    subst h1
    have h2 := ih parts fun x hx => hall x (List.mem_cons_of_mem _ hx)
    simpa [applyAfterHooks] using h2

/-- C4: the `ToolCall` state machine admits exactly the listed transitions;
every allowed transition strictly increases the lifecycle rank, terminal
states have no outgoing transition, any status history obeying the machine
never revisits a state; every call processed by the scheduler model has a
history that follows the machine from `validating` to its final status,
reaching exactly one terminal state, and a valid call never started when
cancellation is observed becomes `cancelled`. -/
theorem C4_state_machine :
    (∀ s t : Status, stepOk s t = true ↔
      ((s = .validating ∧ t = .scheduled) ∨ (s = .validating ∧ t = .error) ∨
       (s = .scheduled ∧ t = .awaiting_approval) ∨ (s = .scheduled ∧ t = .executing) ∨
       (s = .scheduled ∧ t = .error) ∨ (s = .scheduled ∧ t = .cancelled) ∨
       (s = .awaiting_approval ∧ t = .executing) ∨ (s = .awaiting_approval ∧ t = .cancelled) ∨
       (s = .awaiting_approval ∧ t = .error) ∨
       (s = .executing ∧ t = .success) ∨ (s = .executing ∧ t = .error) ∨
       (s = .executing ∧ t = .cancelled)))
    ∧ (∀ s t : Status, stepOk s t = true → s.rank < t.rank)
    ∧ (∀ s : Status, s.isTerminal = true → ∀ t : Status, stepOk s t = false)
    ∧ (∀ p : List Status, List.Chain' (fun a b => stepOk a b = true) p → p.Nodup)
    ∧ (∀ (mode : ApprovalMode) (cancelled : Bool) (inp : CallInput),
        List.Chain' (fun a b => stepOk a b = true) (processCall mode cancelled inp).history
        ∧ (processCall mode cancelled inp).history.head? = some .validating
        ∧ (processCall mode cancelled inp).history.getLast? =
            some (processCall mode cancelled inp).status
        ∧ (processCall mode cancelled inp).status.isTerminal = true)
    ∧ (∀ (mode : ApprovalMode) (inp : CallInput), inp.resolved = true → inp.argsValid = true →
        (processCall mode true inp).status = .cancelled
        ∧ (processCall mode true inp).execInvoked = false) := by
  refine ⟨by decide, stepOk_rank, by decide, ?_,
    fun mode cancelled inp => processCall_spec mode cancelled inp, ?_⟩
  · intro p hp
    have h2 : List.Chain' (fun a b : Status => a.rank < b.rank) p :=
      List.Chain'.imp (fun a b hab => stepOk_rank a b hab) hp
    have h3 : List.Pairwise (fun a b : Status => a.rank < b.rank) p :=
      List.chain'_iff_pairwise.mp h2
    exact h3.imp fun hab he => by subst he; exact Nat.lt_irrefl _ hab
  · intro mode inp hres hav
    exact ⟨(processCall_cancelled_of_valid mode inp hres hav).1,
      (processCall_cancelled_of_valid mode inp hres hav).2.1⟩

/-- Witness for C4: the transition `validating → scheduled` increases the
rank, and the concrete history `[validating, scheduled, executing, success]`
obeys the machine and revisits no state. -/
theorem C4_state_machine_witness :
    Status.rank .validating < Status.rank .scheduled
    ∧ ([Status.validating, .scheduled, .executing, .success]).Nodup :=
  ⟨C4_state_machine.2.1 .validating .scheduled (by decide),
   C4_state_machine.2.2.2.1 [.validating, .scheduled, .executing, .success]
     (by simp [List.chain'_cons, stepOk])⟩

/-- C5: a call the Policy Engine denies is never executed: its entry in the
final call list is terminal `error` carrying the policy-denial reason, its
`execute` was not invoked, no confirmation was published for it, and its
history went straight from `scheduled` to `error`. -/
theorem C5_policy_denial :
    ∀ (mode : ApprovalMode) (inputs : List CallInput) (i : Nat) (inp : CallInput),
      inputs[i]? = some inp → inp.resolved = true → inp.argsValid = true →
      inp.policy = .deny →
      ∃ c, (runSchedule mode none inputs).calls[i]? = some c ∧
        c.status = .error ∧ c.execInvoked = false ∧ c.published = false ∧
        c.result.errorInfo = some .policyDenial ∧
        c.history = [.validating, .scheduled, .error] := by
  intro mode inputs i inp hi hres hav hpol
  refine ⟨processCall mode false inp, ?_, ?_⟩
  · simp only [runSchedule]
    rw [runFrom_getElem, hi]
    simp [cancelFlag]
  · simp [processCall, hres, hav, hpol]

/-- Witness for C5: a single-call batch whose policy decision is `deny`
terminates in `error` with reason policy denial and no execution. -/
theorem C5_policy_denial_witness :
    ∃ c, (runSchedule ApprovalMode.default none
        [⟨"3", true, true, true, .deny, false, .proceed, false, [], .ok [] ""⟩]).calls[0]? =
          some c ∧
      c.status = .error ∧ c.execInvoked = false ∧ c.published = false ∧
      c.result.errorInfo = some .policyDenial ∧
      c.history = [.validating, .scheduled, .error] :=
  C5_policy_denial ApprovalMode.default
    [⟨"3", true, true, true, .deny, false, .proceed, false, [], .ok [] ""⟩] 0
    ⟨"3", true, true, true, .deny, false, .proceed, false, [], .ok [] ""⟩
    (by simp) rfl rfl rfl

/-- C6: when cancellation is triggered before any wave begins, every call of
a batch of resolvable, argument-valid calls ends `cancelled` and none is
ever executed; in general a valid call not yet started when cancellation is
observed goes `validating → scheduled → cancelled` without executing. -/
theorem C6_cancel_before_start :
    (∀ (mode : ApprovalMode) (inputs : List CallInput),
      (∀ inp ∈ inputs, inp.resolved = true ∧ inp.argsValid = true) →
      ∀ c ∈ (runSchedule mode (some 0) inputs).calls,
        c.status = .cancelled ∧ c.execInvoked = false)
    ∧ (∀ (mode : ApprovalMode) (inp : CallInput),
        inp.resolved = true → inp.argsValid = true →
        (processCall mode true inp).status = .cancelled
        ∧ (processCall mode true inp).execInvoked = false
        ∧ (processCall mode true inp).history = [.validating, .scheduled, .cancelled]) := by
  constructor
  · intro mode inputs hvalid c hc
    simp only [runSchedule] at hc
    rcases runFrom_mem mode (some 0) _ inputs 0 c hc with ⟨inp, hmem, j, hj⟩
    subst hj
    rw [cancelFlag_zero]
    have h := hvalid inp hmem
    exact ⟨(processCall_cancelled_of_valid mode inp h.1 h.2).1,
      (processCall_cancelled_of_valid mode inp h.1 h.2).2.1⟩
  · intro mode inp hres hav
    exact processCall_cancelled_of_valid mode inp hres hav

/-- Witness for C6: the sample valid call, observed as cancelled before it
starts, ends `cancelled` without executing. -/
theorem C6_cancel_before_start_witness :
    (processCall ApprovalMode.default true sampleInput).status = .cancelled
    ∧ (processCall ApprovalMode.default true sampleInput).execInvoked = false
    ∧ (processCall ApprovalMode.default true sampleInput).history =
        [.validating, .scheduled, .cancelled] :=
  C6_cancel_before_start.2 ApprovalMode.default sampleInput rfl rfl

/-- C7: under `yolo` mode, a valid call whose policy decision is `ask_user`
(and which no hook denies) is treated as allowed: it executes, completes in
a terminal state, never enters `awaiting_approval`, and publishes nothing on
the Confirmation Channel. -/
theorem C7_yolo_override :
    ∀ (inputs : List CallInput) (i : Nat) (inp : CallInput),
      inputs[i]? = some inp → inp.resolved = true → inp.argsValid = true →
      inp.policy = .ask_user → inp.beforeDeny = false →
      ∃ c, (runSchedule .yolo none inputs).calls[i]? = some c ∧
        c.published = false ∧ c.execInvoked = true ∧
        Status.awaiting_approval ∉ c.history ∧ c.status.isTerminal = true := by
  intro inputs i inp hi hres hav hpol hbd
  refine ⟨processCall .yolo false inp, ?_, ?_⟩
  · simp only [runSchedule]
    rw [runFrom_getElem, hi]
    simp [cancelFlag]
  · have hred : processCall .yolo false inp = execPhase inp false [.validating, .scheduled] := by
      simp [processCall, hres, hav, hpol]
    rw [hred]
    cases heo : inp.execOutcome <;> simp [execPhase, hbd, heo, Status.isTerminal]

/-- Witness for C7: a single `ask_user` call under `yolo` completes with no
publication and without entering `awaiting_approval`. -/
theorem C7_yolo_override_witness :
    ∃ c, (runSchedule .yolo none
        [⟨"1", true, true, true, .ask_user, false, .proceed, false, [],
          .ok [.text "done"] "done"⟩]).calls[0]? = some c ∧
      c.published = false ∧ c.execInvoked = true ∧
      Status.awaiting_approval ∉ c.history ∧ c.status.isTerminal = true :=
  C7_yolo_override
    [⟨"1", true, true, true, .ask_user, false, .proceed, false, [], .ok [.text "done"] "done"⟩] 0
    ⟨"1", true, true, true, .ask_user, false, .proceed, false, [], .ok [.text "done"] "done"⟩
    (by simp) rfl rfl rfl rfl

/-- C8: when a call executes successfully and no configured `AfterTool` hook
rewrites its result (every hook invocation fails, which the pipeline treats
as `allow`), the delivered result content is exactly the executed content —
same parts, same order; in particular a text part followed by an inline
binary part keeps its MIME type and payload bytes unchanged. -/
theorem C8_result_preservation :
    ∀ (mode : ApprovalMode) (inputs : List CallInput) (i : Nat) (inp : CallInput)
      (parts : List ResultPart) (disp : String),
      inputs[i]? = some inp → inp.resolved = true → inp.argsValid = true →
      inp.policy = .allow → inp.beforeDeny = false →
      (∀ h ∈ inp.afterHooks, h = AfterHook.hookFail) →
      inp.execOutcome = .ok parts disp →
      ∃ c, (runSchedule mode none inputs).calls[i]? = some c ∧
        c.status = .success ∧ c.result.content = parts ∧
        ∀ (t mime : String) (bytes : List Nat),
          parts = [.text t, .inlineData mime bytes] →
          c.result.content = [.text t, .inlineData mime bytes] := by
  intro mode inputs i inp parts disp hi hres hav hpol hbd hhooks heo
  have hcontent : (processCall mode false inp).result.content = parts := by
    simp [processCall, hres, hav, hpol, execPhase, hbd, heo]
    exact applyAfterHooks_fail _ _ hhooks
  refine ⟨processCall mode false inp, ?_, ?_, hcontent, ?_⟩
  · simp only [runSchedule]
    rw [runFrom_getElem, hi]
    simp [cancelFlag]
  · simp [processCall, hres, hav, hpol, execPhase, hbd, heo]
  · intro t mime bytes hparts
    rw [hcontent, hparts]

/-- Witness for C8: a result made of a text part and a PNG inline part is
delivered byte-identical when the only configured hook fails (treated as
allow). -/
theorem C8_result_preservation_witness :
    ∃ c, (runSchedule ApprovalMode.default none
        [⟨"1", true, true, true, .allow, false, .proceed, false, [AfterHook.hookFail],
          .ok [.text "1x1 image", .inlineData "image/png" [137, 80, 78, 71]] "img"⟩]).calls[0]? =
          some c ∧
      c.status = .success ∧
      c.result.content = [.text "1x1 image", .inlineData "image/png" [137, 80, 78, 71]] ∧
      ∀ (t mime : String) (bytes : List Nat),
        [ResultPart.text "1x1 image", ResultPart.inlineData "image/png" [137, 80, 78, 71]] =
          [.text t, .inlineData mime bytes] →
        c.result.content = [.text t, .inlineData mime bytes] :=
  C8_result_preservation ApprovalMode.default
    [⟨"1", true, true, true, .allow, false, .proceed, false, [AfterHook.hookFail],
      .ok [.text "1x1 image", .inlineData "image/png" [137, 80, 78, 71]] "img"⟩] 0
    ⟨"1", true, true, true, .allow, false, .proceed, false, [AfterHook.hookFail],
      .ok [.text "1x1 image", .inlineData "image/png" [137, 80, 78, 71]] "img"⟩
    [.text "1x1 image", .inlineData "image/png" [137, 80, 78, 71]] "img"
    (by simp) rfl rfl rfl rfl
    (by intro h hh; simp at hh; exact hh) rfl

/-- C9: each `schedule` invocation fires `onAllComplete` exactly once, with
the final call list, only after every call is terminal, and that list has
exactly one entry per submitted request, in order, with matching call ids. -/
theorem C9_single_completion :
    ∀ (mode : ApprovalMode) (cancelAt : Option Nat) (inputs : List CallInput),
      (runSchedule mode cancelAt inputs).completions =
        [(runSchedule mode cancelAt inputs).calls]
      ∧ (runSchedule mode cancelAt inputs).completions.length = 1
      ∧ (runSchedule mode cancelAt inputs).calls.length = inputs.length
      ∧ (runSchedule mode cancelAt inputs).calls.map CallOutcome.callId =
          inputs.map CallInput.callId
      ∧ ∀ c ∈ (runSchedule mode cancelAt inputs).calls, c.status.isTerminal = true := by
  intro mode cancelAt inputs
  refine ⟨rfl, rfl, ?_, ?_, ?_⟩
  · simp only [runSchedule]
    exact runFrom_length _ _ _ inputs 0
  · simp only [runSchedule]
    exact runFrom_callIds _ _ _ inputs 0
  · intro c hc
    simp only [runSchedule] at hc
    rcases runFrom_mem _ _ _ inputs 0 c hc with ⟨inp, _, j, hj⟩
    subst hj
    exact (processCall_spec _ _ _).2.2.2

/-- Witness for C9: the single-call sample batch yields one final entry, one
completion event, and a terminal status for its call. -/
theorem C9_single_completion_witness :
    (runSchedule ApprovalMode.default none [sampleInput]).calls.length = 1
    ∧ (runSchedule ApprovalMode.default none [sampleInput]).completions.length = 1
    ∧ (processCall ApprovalMode.default false sampleInput).status.isTerminal = true :=
  ⟨by rw [(C9_single_completion ApprovalMode.default none [sampleInput]).2.2.1]; rfl,
   (C9_single_completion ApprovalMode.default none [sampleInput]).2.1,
   (C9_single_completion ApprovalMode.default none [sampleInput]).2.2.2.2
     (processCall ApprovalMode.default false sampleInput)
     (by simp [runSchedule, runFrom, cancelFlag])⟩

/-- C10: `DelegateToVisualAgentInvocation.execute` never throws — every run
returns a result, either the formatted agent output with no error or the
`Visual delegation failed:` result — and whenever any step (screenshot
capture, MCP tool creation, executor creation, agent run) raises an error
with message `m`, the returned result has `llmContent` and `returnDisplay`
both equal to `"Visual delegation failed: " ++ m` and its error message set
to `m`. -/
theorem C10_visual_delegation_errors :
    (∀ (instruction : String) (env : VisualEnv),
      (∃ t, DelegateToVisualAgentInvocation.execute instruction env = ⟨t, t, none⟩) ∨
      (∃ m, DelegateToVisualAgentInvocation.execute instruction env =
        ⟨"Visual delegation failed: " ++ m, "Visual delegation failed: " ++ m, some m⟩))
    ∧ (∀ (instruction : String) (env : VisualEnv) (m : String),
        env.takeScreenshot = .error m →
        DelegateToVisualAgentInvocation.execute instruction env = visualFailure m)
    ∧ (∀ (instruction : String) (env : VisualEnv) (m : String) (sr : McpToolResult),
        env.takeScreenshot = .ok sr → env.createTools = .error m →
        DelegateToVisualAgentInvocation.execute instruction env = visualFailure m)
    ∧ (∀ (instruction : String) (env : VisualEnv) (m : String) (sr : McpToolResult),
        env.takeScreenshot = .ok sr → env.createTools = .ok () →
        env.createExecutor = .error m →
        DelegateToVisualAgentInvocation.execute instruction env = visualFailure m)
    ∧ (∀ (instruction : String) (env : VisualEnv) (m : String) (sr : McpToolResult),
        env.takeScreenshot = .ok sr → env.createTools = .ok () →
        env.createExecutor = .ok () → env.runAgent = .error m →
        DelegateToVisualAgentInvocation.execute instruction env = visualFailure m)
    ∧ (∀ m : String, visualFailure m =
        ⟨"Visual delegation failed: " ++ m, "Visual delegation failed: " ++ m, some m⟩) := by
  refine ⟨?_, ?_, ?_, ?_, ?_, fun m => rfl⟩
  · intro instruction env
    rcases hs : env.takeScreenshot with e | sr
    · exact Or.inr ⟨e, by simp [DelegateToVisualAgentInvocation.execute, hs, visualFailure]⟩
    · rcases ht : env.createTools with e | u
      · exact Or.inr ⟨e, by simp [DelegateToVisualAgentInvocation.execute, hs, ht, visualFailure]⟩
      · rcases hx : env.createExecutor with e | u'
        · exact Or.inr ⟨e, by
            simp [DelegateToVisualAgentInvocation.execute, hs, ht, hx, visualFailure]⟩
        · rcases hr : env.runAgent with e | out
          · exact Or.inr ⟨e, by
              simp [DelegateToVisualAgentInvocation.execute, hs, ht, hx, hr, visualFailure]⟩
          · exact Or.inl ⟨"Visual Agent Result:\nTermination Reason: " ++
              out.terminate_reason ++ "\nResult: " ++ out.result, by
              simp [DelegateToVisualAgentInvocation.execute, hs, ht, hx, hr]⟩
  · intro instruction env m hm
    simp [DelegateToVisualAgentInvocation.execute, hm]
  · intro instruction env m sr hs ht
    simp [DelegateToVisualAgentInvocation.execute, hs, ht]
  · intro instruction env m sr hs ht hx
    simp [DelegateToVisualAgentInvocation.execute, hs, ht, hx]
  · intro instruction env m sr hs ht hx hr
    simp [DelegateToVisualAgentInvocation.execute, hs, ht, hx, hr]

/-- Witness for C10: a run whose screenshot capture throws `boom` returns
the formatted failure result with error message `boom`. -/
theorem C10_visual_delegation_errors_witness :
    DelegateToVisualAgentInvocation.execute "click the blue button"
      ⟨.error "boom", .ok (), .ok (), .ok ⟨"GOAL", "done"⟩⟩ = visualFailure "boom" :=
  C10_visual_delegation_errors.2.1 "click the blue button"
    ⟨.error "boom", .ok (), .ok (), .ok ⟨"GOAL", "done"⟩⟩ "boom" rfl
